import Mathlib

/-!
Verification of the staged multiply/divide arithmetic unit model
(`python/multiplier.py`, class `multdiv`).

Shallow embedding conventions:
* Python integers are unbounded, so registers are `Nat`/`Int`; the source's
  `& mask64`/`& mask32` become `% 2^64`/`% 2^32`, `<< k` becomes `* 2^k`,
  `>> k` becomes `/ 2^k` (and `Int.fdiv` for Python's floor shift of a
  possibly negative accumulator), and `x & sign_bit` (a single-bit test)
  becomes `x / 2^31 % 2 = 1`.
* The accumulator is an `Int`: `div_step` stores `-next_acc + (1<<stage)`
  without masking, and in Python that value can be a negative integer.
* The two `while` loops of `div_init` need not terminate in the source, so
  they take an explicit fuel and return `Option`; the source's `div_init`
  therefore returns `Option multdiv` (`none` = the loop is still running
  after `fuel` iterations).  The source defines `div_init` twice with the
  same body; only the effective (second) definition is embedded.
* Python raises on a negative shift count, so `combinatorial` takes its
  shift amount as a `Nat`; `mul_step` passes `(stage*4).toNat` (the stage
  is a natural number throughout every multiply sequence).
-/

namespace MultDiv

/-- State of the `multdiv` class.  `__init__` zeroes `accumulator`,
`multiplier`, `multiplicand` and `stage`; `divisor` does not exist until
`div_init` runs, and is represented here as an extra field initialised to 0
(no claim reads it before `div_init` assigns it). -/
structure multdiv where
  accumulator : Int
  multiplier : Nat
  multiplicand : Nat
  stage : Int
  divisor : Nat
deriving DecidableEq, Repr

/-- `multdiv.__init__`. -/
def multdiv.init : multdiv :=
  { accumulator := 0, multiplier := 0, multiplicand := 0, stage := 0, divisor := 0 }

/-- `multdiv.combinatorial`: one combinational partial-product /
accumulate-or-subtract stage. -/
def combinatorial (mult4 areg : Nat) (subtract_acc : Bool) (acc : Int)
    (shift : Nat) : Int :=
  let sel0123 := mult4 % 4
  let sel048c := mult4 / 4 % 4
  let stage1_0 : Nat := 0
  let stage1_1 := areg
  let stage1_2 := areg * 2
  let stage1_3 := stage1_2 + stage1_1
  let stage1_4 := stage1_1 * 4
  let stage1_8 := stage1_2 * 4
  let stage1_c := stage1_3 * 4
  let mux_0123 :=
    if sel0123 = 0 then stage1_0
    else if sel0123 = 1 then stage1_1
    else if sel0123 = 2 then stage1_2
    else stage1_3
  let mux_048c :=
    if sel048c = 0 then stage1_0
    else if sel048c = 1 then stage1_4
    else if sel048c = 2 then stage1_8
    else stage1_c
  let stage2 := mux_0123 + mux_048c
  if subtract_acc then ((stage2 * 2 ^ shift : Int) - acc) % 2 ^ 64
  else ((stage2 * 2 ^ shift : Int) + acc) % 2 ^ 64

/-- `multdiv.mul_init`. -/
def mul_init (m : multdiv) (a b : Nat) (sa sb : Bool) : multdiv :=
  let multiplier := a % 2 ^ 32
  let multiplicand := b % 2 ^ 32
  let acc_in : Nat :=
    if sa = true ∧ a / 2 ^ 31 % 2 = 1 then
      let t := b % 2 ^ 32 * 2 ^ 32
      if sb then t / 2 ^ 32 % 2 ^ 31 * 2 ^ 32 else t
    else 0
  let add_in : Nat :=
    if sb = true ∧ b / 2 ^ 31 % 2 = 1 then
      let t := a % 2 ^ 32
      if sa then t % 2 ^ 31 else t
    else 0
  let next_acc := combinatorial 1 add_in false (acc_in : Int) 32
  { m with multiplier := multiplier, multiplicand := multiplicand,
           stage := 0, accumulator := next_acc % 2 ^ 64 }

/-- `multdiv.mul_step`; returns the new state together with the Python
return value `(self.multiplier == 0)`. -/
def mul_step (m : multdiv) : multdiv × Bool :=
  let next_acc := combinatorial (m.multiplier % 16) m.multiplicand
      (decide (m.stage = 0)) m.accumulator ((m.stage * 4).toNat)
  let m' := { m with accumulator := next_acc, stage := m.stage + 1,
                     multiplier := m.multiplier / 16 }
  (m', decide (m'.multiplier = 0))

/-- First `while` loop of `div_init`: left-shift the divisor until its top
bit (bit 31) is set, incrementing the stage counter, with explicit fuel. -/
def normDivisor (fuel : Nat) (d : Nat) (s : Int) : Option (Nat × Int) :=
  if d / 2 ^ 31 % 2 = 1 then some (d, s)
  else
    match fuel with
    | 0 => none
    | fuel' + 1 => normDivisor fuel' (d * 2) (s + 1)

/-- Second `while` loop of `div_init`: left-shift the accumulator until its
top bit (bit 63) is set, decrementing the stage counter, with explicit fuel. -/
def normAccumulator (fuel : Nat) (acc : Nat) (s : Int) : Option (Nat × Int) :=
  if acc / 2 ^ 63 % 2 = 1 then some (acc, s)
  else
    match fuel with
    | 0 => none
    | fuel' + 1 => normAccumulator fuel' (acc * 2) (s - 1)

/-- `multdiv.div_init` (the effective second definition in the source).
Returns `none` when either normalization loop is still running after `fuel`
iterations. -/
def div_init (m : multdiv) (a b : Nat) (signed : Bool) (fuel : Nat) :
    Option multdiv :=
  match normDivisor fuel (b % 2 ^ 32) 0 with
  | none => none
  | some (d, s) =>
    match normAccumulator fuel (a % 2 ^ 32 * 2 ^ 32) s with
    | none => none
    | some (acc, s') =>
      some { m with divisor := d, accumulator := (acc : Int), stage := s' }

/-- `multdiv.div_step`; returns the new state together with the Python
return value `(self.stage < 0)`. -/
def div_step (m : multdiv) : multdiv × Bool :=
  let next_acc := combinatorial 1 m.divisor true m.accumulator 32
  let m' :=
    if 0 ≤ next_acc ∧ 0 ≤ m.stage then
      { m with accumulator := -next_acc + 2 ^ m.stage.toNat }
    else m
  let m'' := { m' with divisor := m'.divisor / 2, stage := m.stage - 1 }
  (m'', decide (m.stage - 1 < 0))

/-- `multdiv.div_remainder` (the unused arguments are kept from the source). -/
def div_remainder (m : multdiv) (a b : Nat) (signed : Bool) : Int :=
  Int.fdiv m.accumulator (2 ^ 32) % 2 ^ 32

/-- `multdiv.div_result` (the unused arguments are kept from the source). -/
def div_result (m : multdiv) (a b : Nat) (signed : Bool) : Int :=
  m.accumulator % 2 ^ 32

/-- Iterate `mul_step` (keeping only the state) `n` times. -/
def mulIter : Nat → multdiv → multdiv
  | 0, s => s
  | n + 1, s => mulIter n (mul_step s).1

/-- The state after `mul_init` on a fresh engine followed by `n` calls of
`mul_step`. -/
def mulRun (a b : Nat) (sa sb : Bool) (n : Nat) : multdiv :=
  mulIter n (mul_init multdiv.init a b sa sb)

/-- Iterate `div_step` (keeping only the state) `n` times. -/
def divIter : Nat → multdiv → multdiv
  | 0, s => s
  | n + 1, s => divIter n (div_step s).1

/-- The accumulator values and return flags of `n` successive `div_step`
calls, followed by the quotient and remainder read from the final state. -/
def divTrace (n : Nat) (s : multdiv) (a b : Nat) (signed : Bool) :
    List (Int × Bool) × Int × Int :=
  match n with
  | 0 => ([], div_result s a b signed, div_remainder s a b signed)
  | n + 1 =>
    let r := div_step s
    let rest := divTrace n r.1 a b signed
    ((r.1.accumulator, r.2) :: rest.1, rest.2)

/-- The signed 32-bit two's-complement interpretation of (the low 32 bits
of) a value. -/
def signed32 (x : Nat) : Int :=
  if x / 2 ^ 31 % 2 = 1 then (x % 2 ^ 32 : Nat) - 2 ^ 32
  else (x % 2 ^ 32 : Nat)

/-! ### Helper lemmas -/

theorem stage2_eq (mult4 areg : Nat) :
    ((if mult4 % 4 = 0 then 0
      else if mult4 % 4 = 1 then areg
      else if mult4 % 4 = 2 then areg * 2
      else areg * 2 + areg)
     + (if mult4 / 4 % 4 = 0 then 0
        else if mult4 / 4 % 4 = 1 then areg * 4
        else if mult4 / 4 % 4 = 2 then areg * 2 * 4
        else (areg * 2 + areg) * 4)) = mult4 % 16 * areg := by
  have h16 : mult4 % 4 + 4 * (mult4 / 4 % 4) = mult4 % 16 := by omega
  have h1 : mult4 % 4 = 0 ∨ mult4 % 4 = 1 ∨ mult4 % 4 = 2 ∨ mult4 % 4 = 3 := by omega
  have h2 : mult4 / 4 % 4 = 0 ∨ mult4 / 4 % 4 = 1 ∨ mult4 / 4 % 4 = 2 ∨
      mult4 / 4 % 4 = 3 := by omega
  rw [← h16]
  rcases h1 with h | h | h | h <;> rcases h2 with h' | h' | h' | h' <;>
    rw [h, h'] <;> norm_num <;> ring

theorem combinatorial_spec (mult4 areg : Nat) (sub : Bool) (acc : Int) (shift : Nat) :
    combinatorial mult4 areg sub acc shift =
      if sub then (((mult4 % 16 * areg : Nat) : Int) * 2 ^ shift - acc) % 2 ^ 64
      else (((mult4 % 16 * areg : Nat) : Int) * 2 ^ shift + acc) % 2 ^ 64 := by
  simp only [combinatorial]
  rw [stage2_eq]

theorem mulIter_succ (n : Nat) (s : multdiv) :
    mulIter (n + 1) s = (mul_step (mulIter n s)).1 := by
  induction n generalizing s with
  | zero => rfl
  | succ n ih =>
    show mulIter (n + 1) (mul_step s).1 = _
    rw [ih]
    rfl

theorem emod64_absorb_add (x y : Int) :
    (x + y % 2 ^ 64) % 2 ^ 64 = (x + y) % 2 ^ 64 := by
  omega

theorem emod64_absorb_sub (x y : Int) :
    (x - y % 2 ^ 64) % 2 ^ 64 = (x - y) % 2 ^ 64 := by
  omega

theorem mulIter_spec (n : Nat) (hn : 1 ≤ n) (s : multdiv) (h : s.stage = 0) :
    mulIter n s =
      { accumulator :=
          (((s.multiplier % 16 ^ n * s.multiplicand : Nat) : Int) - s.accumulator) % 2 ^ 64,
        multiplier := s.multiplier / 16 ^ n,
        multiplicand := s.multiplicand,
        stage := (n : Int),
        divisor := s.divisor } := by
  obtain ⟨acc, mult, mcand, stg, dv⟩ := s
  simp only at h
  subst h
  induction n, hn using Nat.le_induction with
  | base =>
    show (mul_step _).1 = _
    simp only [mul_step, combinatorial_spec]
    norm_num
  | succ n hn ih =>
    rw [mulIter_succ, ih]
    simp only [mul_step, combinatorial_spec]
    have hne : ¬((n : Int) = 0) := by omega
    have hsh : (((n : Int)) * 4).toNat = 4 * n := by omega
    simp only [hne, decide_eq_true_eq, if_neg, decide_eq_false_iff_not, hsh, if_false]
    have hmm : mult / 16 ^ n % 16 % 16 = mult / 16 ^ n % 16 := by omega
    have hdd : mult / 16 ^ n / 16 = mult / 16 ^ (n + 1) := by
      rw [Nat.div_div_eq_div_mul, pow_succ]
    have hpow : (2 : Int) ^ (4 * n) = ((16 ^ n : Nat) : Int) := by
      push_cast
      rw [pow_mul]
      norm_num
    have hsplit : mult % 16 ^ (n + 1) = mult % 16 ^ n + 16 ^ n * (mult / 16 ^ n % 16) := by
      rw [pow_succ, Nat.mod_mul]
    have hacc : ((↑(mult / 16 ^ n % 16 % 16 * mcand) : Int) * 2 ^ (4 * n) +
        ((↑(mult % 16 ^ n * mcand) : Int) - acc) % 2 ^ 64) % 2 ^ 64
        = ((↑(mult % 16 ^ (n + 1) * mcand) : Int) - acc) % 2 ^ 64 := by
      rw [emod64_absorb_add]
      congr 1
      rw [hmm, hsplit, hpow]
      push_cast
      ring
    simp only [multdiv.mk.injEq, hacc, hdd]
    norm_num

theorem mul_init_fields (m : multdiv) (a b : Nat) (sa sb : Bool) :
    (mul_init m a b sa sb).multiplier = a % 2 ^ 32 ∧
    (mul_init m a b sa sb).multiplicand = b % 2 ^ 32 ∧
    (mul_init m a b sa sb).stage = 0 ∧
    (mul_init m a b sa sb).divisor = m.divisor := by
  simp [mul_init]

theorem mul_step_snd (m : multdiv) :
    (mul_step m).2 = decide ((mul_step m).1.multiplier = 0) := rfl

theorem mulRun_eq (a b : Nat) (sa sb : Bool) (n : Nat) (hn : 1 ≤ n) :
    mulRun a b sa sb n =
      { accumulator :=
          (((a % 2 ^ 32 % 16 ^ n * (b % 2 ^ 32) : Nat) : Int)
            - (mul_init multdiv.init a b sa sb).accumulator) % 2 ^ 64,
        multiplier := a % 2 ^ 32 / 16 ^ n,
        multiplicand := b % 2 ^ 32,
        stage := (n : Int),
        divisor := 0 } := by
  obtain ⟨h1, h2, h3, h4⟩ := mul_init_fields multdiv.init a b sa sb
  rw [mulRun, mulIter_spec n hn _ h3, h1, h2, h4]
  rfl

theorem mulRun_stop (a b : Nat) (sa sb : Bool) (n : Nat) (hn : 1 ≤ n)
    (h : (mul_step (mulRun a b sa sb (n - 1))).2 = true) :
    a % 2 ^ 32 % 16 ^ n = a % 2 ^ 32 := by
  have hstep : (mul_step (mulRun a b sa sb (n - 1))).1 = mulRun a b sa sb n := by
    rw [mulRun, mulRun, ← mulIter_succ]
    congr 1
    omega
  rw [mul_step_snd, hstep] at h
  simp only [decide_eq_true_eq] at h
  rw [mulRun_eq a b sa sb n hn] at h
  simp only at h
  have hlt : a % 2 ^ 32 < 16 ^ n := by
    by_contra hge
    have := Nat.div_le_div_right (c := 16 ^ n) (Nat.le_of_not_lt hge)
    rw [h, Nat.div_self (by positivity)] at this
    omega
  exact Nat.mod_eq_of_lt hlt

theorem mul_init_unsigned_acc (m : multdiv) (a b : Nat) :
    (mul_init m a b false false).accumulator = 0 := by
  simp [mul_init, combinatorial_spec]

/-! ### Claims -/

/-- C1: for all 32-bit operands, an unsigned multiply (`mul_init` with both
sign flags false, then `mul_step` until it returns true) leaves the
accumulator equal to `(a mod 2^32) * (b mod 2^32) mod 2^64`. -/
theorem C1_mul_unsigned (a b n : Nat) (hn : 1 ≤ n)
    (h : (mul_step (mulRun a b false false (n - 1))).2 = true) :
    (mulRun a b false false n).accumulator =
      ((a % 2 ^ 32 * (b % 2 ^ 32) % 2 ^ 64 : Nat) : Int) := by
  rw [mulRun_eq a b false false n hn]
  simp only
  rw [mulRun_stop a b false false n hn h, mul_init_unsigned_acc]
  omega

theorem C1_witness :
    (mul_step (mulRun 4 5 false false (8 - 1))).2 = true ∧
    (mulRun 4 5 false false 8).accumulator =
      ((4 % 2 ^ 32 * (5 % 2 ^ 32) % 2 ^ 64 : Nat) : Int) :=
  ⟨by decide, C1_mul_unsigned 4 5 8 (by decide) (by decide)⟩

theorem mul_init_acc (m : multdiv) (a b : Nat) (sa sb : Bool) :
    (mul_init m a b sa sb).accumulator =
      (((if sb = true ∧ b / 2 ^ 31 % 2 = 1 then
            (if sa then a % 2 ^ 32 % 2 ^ 31 else a % 2 ^ 32) else 0 : Nat) : Int) * 2 ^ 32
        + ((if sa = true ∧ a / 2 ^ 31 % 2 = 1 then
            (if sb then b % 2 ^ 32 * 2 ^ 32 / 2 ^ 32 % 2 ^ 31 * 2 ^ 32
             else b % 2 ^ 32 * 2 ^ 32) else 0 : Nat) : Int)) % 2 ^ 64 := by
  simp only [mul_init, combinatorial_spec, Bool.false_eq_true, if_false]
  generalize ((if sb = true ∧ b / 2 ^ 31 % 2 = 1 then
      (if sa then a % 2 ^ 32 % 2 ^ 31 else a % 2 ^ 32) else 0 : Nat)) = X
  generalize ((if sa = true ∧ a / 2 ^ 31 % 2 = 1 then
      (if sb then b % 2 ^ 32 * 2 ^ 32 / 2 ^ 32 % 2 ^ 31 * 2 ^ 32
       else b % 2 ^ 32 * 2 ^ 32) else 0 : Nat)) = Y
  omega

theorem mul_init_acc2 (m : multdiv) (a b : Nat) (sa sb : Bool) :
    (mul_init m a b sa sb).accumulator =
      ((if sb = true ∧ b / 2 ^ 31 % 2 = 1 then
          (if sa = true ∧ a / 2 ^ 31 % 2 = 1 then ((a % 2 ^ 32 : Nat) : Int) - 2 ^ 31
           else ((a % 2 ^ 32 : Nat) : Int))
        else 0) * 2 ^ 32
       + (if sa = true ∧ a / 2 ^ 31 % 2 = 1 then
          (if sb = true ∧ b / 2 ^ 31 % 2 = 1 then ((b % 2 ^ 32 : Nat) : Int) - 2 ^ 31
           else ((b % 2 ^ 32 : Nat) : Int))
         else 0) * 2 ^ 32) % 2 ^ 64 := by
  rw [mul_init_acc]
  rw [show (b % 2 ^ 32 * 2 ^ 32 / 2 ^ 32 % 2 ^ 31 * 2 ^ 32 : Nat)
        = b % 2 ^ 32 % 2 ^ 31 * 2 ^ 32 from by omega]
  by_cases hba : a / 2 ^ 31 % 2 = 1 <;> by_cases hbb : b / 2 ^ 31 % 2 = 1 <;>
    rcases sa with _ | _ <;> rcases sb with _ | _ <;>
    simp only [hba, hbb, Bool.false_eq_true, if_true, if_false, true_and, false_and,
      and_true, and_false, and_self, not_false_eq_true] <;>
    push_cast <;>
    omega

/-- C3: a multiply run to completion with both sign flags true leaves the
accumulator equal to the 64-bit two's-complement encoding of the product of
the operands read as signed 32-bit values; with exactly one flag true it
leaves (mod 2^64) the product of the flagged operand read as signed and the
other read as unsigned.  Stated uniformly over both sign flags via an
if-then-else on each operand's interpretation. -/
theorem C3_mul_signed (a b : Nat) (sa sb : Bool) (n : Nat) (hn : 1 ≤ n)
    (h : (mul_step (mulRun a b sa sb (n - 1))).2 = true) :
    (mulRun a b sa sb n).accumulator =
      ((if sa then signed32 a else ((a % 2 ^ 32 : Nat) : Int)) *
       (if sb then signed32 b else ((b % 2 ^ 32 : Nat) : Int))) % 2 ^ 64 := by
  rw [mulRun_eq a b sa sb n hn]
  simp only
  rw [mulRun_stop a b sa sb n hn h, mul_init_acc2, emod64_absorb_sub, signed32, signed32]
  by_cases hba : a / 2 ^ 31 % 2 = 1 <;> by_cases hbb : b / 2 ^ 31 % 2 = 1 <;>
    rcases sa with _ | _ <;> rcases sb with _ | _ <;>
    simp only [hba, hbb, Bool.false_eq_true, if_true, if_false, true_and, false_and,
      and_true, and_false, and_self, not_false_eq_true] <;>
    congr 1 <;> push_cast <;> ring

theorem C3_witness :
    (mul_step (mulRun 0xFFFFFFFF 5 true true (8 - 1))).2 = true ∧
    (mulRun 0xFFFFFFFF 5 true true 8).accumulator =
      ((if true then signed32 0xFFFFFFFF else ((0xFFFFFFFF % 2 ^ 32 : Nat) : Int)) *
       (if true then signed32 5 else ((5 % 2 ^ 32 : Nat) : Int))) % 2 ^ 64 :=
  ⟨by decide, C3_mul_signed 0xFFFFFFFF 5 true true 8 (by decide) (by decide)⟩

/-- C7 counterexample: with both operands zero the very first `mul_step`
call already returns true, so the multiply does not take eight steps and
the first call does not return false, contrary to the claim. -/
theorem C7_cex : (mul_step (mulRun 0 0 false false 0)).2 = true := by decide

/-- C7 amended: the `n`-th `mul_step` call returns true exactly when the
remaining multiplier `(a mod 2^32) / 16^n` is zero; in particular the 8th
call always returns true, so a multiply completes in at most 8 steps, and
in exactly 8 steps only when `a mod 2^32` has a nonzero top nibble. -/
theorem C7_amended (a b : Nat) (sa sb : Bool) (n : Nat) (hn : 1 ≤ n) :
    (mul_step (mulRun a b sa sb (n - 1))).2 = decide (a % 2 ^ 32 / 16 ^ n = 0) ∧
    (mul_step (mulRun a b sa sb (8 - 1))).2 = true := by
  constructor
  · have hstep : (mul_step (mulRun a b sa sb (n - 1))).1 = mulRun a b sa sb n := by
      rw [mulRun, mulRun, ← mulIter_succ]
      congr 1
      omega
    rw [mul_step_snd, hstep, mulRun_eq a b sa sb n hn]
  · have hstep : (mul_step (mulRun a b sa sb 7)).1 = mulRun a b sa sb 8 := by
      rw [mulRun, mulRun, ← mulIter_succ]
    rw [mul_step_snd, hstep, mulRun_eq a b sa sb 8 (by norm_num)]
    simp only [decide_eq_true_eq]
    exact Nat.div_eq_of_lt (lt_of_lt_of_le (Nat.mod_lt _ (by norm_num)) (by norm_num))

theorem C7_witness :
    ((mul_step (mulRun 0x12345670 9 false false (8 - 1))).2
        = decide (0x12345670 % 2 ^ 32 / 16 ^ 8 = 0) ∧
     (mul_step (mulRun 0x12345670 9 false false (8 - 1))).2 = true) :=
  C7_amended 0x12345670 9 false false 8 (by decide)

theorem combinatorial_nonneg (mult4 areg : Nat) (sub : Bool) (acc : Int) (shift : Nat) :
    0 ≤ combinatorial mult4 areg sub acc shift := by
  rw [combinatorial_spec]
  split <;> omega

theorem combinatorial_lt (mult4 areg : Nat) (sub : Bool) (acc : Int) (shift : Nat) :
    combinatorial mult4 areg sub acc shift < 2 ^ 64 := by
  rw [combinatorial_spec]
  split <;> omega

/-- C4 counterexample: with selector 1, operand 5, accumulator 3, shift 0
and the subtract flag set, the stage returns `5 - 3 = 2`, not the claimed
`accumulator - shifted sum = (3 - 5) mod 2^64`. -/
theorem C4_cex :
    combinatorial 1 5 true 3 0 ≠ (3 - ((1 % 16 * 5 : Nat) : Int) * 2 ^ 0) % 2 ^ 64 := by
  decide

/-- C4 amended: the two muxed partial products do sum to `(mult4 & 15) *
areg`, and the returned value is that sum shifted left and combined with
the accumulator, masked to 64 bits — but when the subtract flag is true the
result is the shifted sum minus the accumulator, not the accumulator minus
the shifted sum. -/
theorem C4_amended (mult4 areg : Nat) (sub : Bool) (acc : Int) (shift : Nat) :
    combinatorial mult4 areg sub acc shift =
      if sub then (((mult4 % 16 * areg : Nat) : Int) * 2 ^ shift - acc) % 2 ^ 64
      else (((mult4 % 16 * areg : Nat) : Int) * 2 ^ shift + acc) % 2 ^ 64 :=
  combinatorial_spec mult4 areg sub acc shift

/-- C5 counterexample: on the real run `div_init(0xdeadbeef, 0x12345670)`,
the first trial subtraction has its top bit set (quotient 1 under a
64-bit signed reading would be negative), yet `div_step` still replaces the
accumulator, contrary to the claim that it is left unchanged. -/
theorem C5_cex :
    (div_init multdiv.init 0xdeadbeef 0x12345670 false 64).map
      (fun s => ((combinatorial 1 s.divisor true s.accumulator 32) / 2 ^ 63,
                 decide ((div_step s).1.accumulator = s.accumulator)))
      = some (1, false) := by
  decide

/-- C5 amended: the non-negativity test in `div_step` compares the masked
(hence always non-negative) trial value, so the accumulator is replaced by
`-(trial) + 2^stage` whenever the stage counter is ≥ 0, regardless of the
trial result's top bit, and is left unchanged exactly when stage < 0. -/
theorem C5_amended (m : multdiv) :
    (div_step m).1.accumulator =
      if 0 ≤ m.stage then
        -(combinatorial 1 m.divisor true m.accumulator 32) + 2 ^ m.stage.toNat
      else m.accumulator := by
  have h := combinatorial_nonneg 1 m.divisor true m.accumulator 32
  by_cases hs : 0 ≤ m.stage
  · simp only [div_step, if_pos (And.intro h hs), if_pos hs]
  · simp only [div_step, hs, and_false, if_false]

/-- C2, code bug: dividing 2 by 1 (which normalizes to divisor `2^31`,
accumulator `2^63`, stage 1) completes after two `div_step` calls but
yields quotient 3 and remainder `0xC0000000`, while the in-file test
driver (`test_div`) expects quotient `2 / 1 = 2` and remainder 0.  The
always-true masked comparison `next_acc >= 0` makes `div_step` take the
quotient-bit branch whenever stage ≥ 0. -/
theorem C2_eval :
    (div_init multdiv.init 2 1 false 64).map
      (fun s => ((div_step (div_step s).1).2,
                 div_result (div_step (div_step s).1).1 2 1 false,
                 div_remainder (div_step (div_step s).1).1 2 1 false))
      = some (true, 3, 0xC0000000) := by
  decide

theorem normDivisor_some_lt (fuel : Nat) (d : Nat) (s : Int) (p : Nat × Int)
    (h : normDivisor fuel d s = some p) (hd : d < 2 ^ 32) : p.1 < 2 ^ 32 := by
  induction fuel generalizing d s with
  | zero =>
    unfold normDivisor at h
    split at h
    · cases h
      exact hd
    · cases h
  | succ fuel ih =>
    unfold normDivisor at h
    split at h
    · cases h
      exact hd
    · rename_i hbit
      exact ih (d * 2) (s + 1) h (by omega)

theorem normAccumulator_some_lt (fuel : Nat) (acc : Nat) (s : Int) (p : Nat × Int)
    (h : normAccumulator fuel acc s = some p) (hacc : acc < 2 ^ 64) : p.1 < 2 ^ 64 := by
  induction fuel generalizing acc s with
  | zero =>
    unfold normAccumulator at h
    split at h
    · cases h
      exact hacc
    · cases h
  | succ fuel ih =>
    unfold normAccumulator at h
    split at h
    · cases h
      exact hacc
    · rename_i hbit
      exact ih (acc * 2) (s - 1) h (by omega)

/-- C6 counterexample: running `div_init(2, 1)` and then two `div_step`
calls stores a negative value (`3 - 2^62`) in the accumulator, so not every
store to the accumulator is masked to 64 bits. -/
theorem C6_cex :
    (div_init multdiv.init 2 1 false 64).map
      (fun s => decide ((div_step (div_step s).1).1.accumulator < 0)) = some true := by
  decide

/-- C6 amended: the multiplier, multiplicand and divisor are always stored
masked to (or shifted down within) 32 bits, and `mul_init`, `mul_step` and
a terminating `div_init` always store a 64-bit-masked accumulator; only the
quotient-bit update of `div_step` stores an unmasked accumulator value,
which can be negative (it is congruent mod 2^64 to the masked value). -/
theorem C6_amended (m : multdiv) (a b : Nat) (sa sb sg : Bool) (fuel : Nat)
    (s' : multdiv) (h : div_init m a b sg fuel = some s') :
    (mul_init m a b sa sb).multiplier < 2 ^ 32 ∧
    (mul_init m a b sa sb).multiplicand < 2 ^ 32 ∧
    0 ≤ (mul_init m a b sa sb).accumulator ∧
    (mul_init m a b sa sb).accumulator < 2 ^ 64 ∧
    (mul_step m).1.multiplier ≤ m.multiplier ∧
    (mul_step m).1.multiplicand = m.multiplicand ∧
    0 ≤ (mul_step m).1.accumulator ∧
    (mul_step m).1.accumulator < 2 ^ 64 ∧
    s'.divisor < 2 ^ 32 ∧
    0 ≤ s'.accumulator ∧
    s'.accumulator < 2 ^ 64 ∧
    (div_step m).1.divisor ≤ m.divisor := by
  obtain ⟨hdiv, hacc0, hacc1⟩ :
      s'.divisor < 2 ^ 32 ∧ 0 ≤ s'.accumulator ∧ s'.accumulator < 2 ^ 64 := by
    unfold div_init at h
    split at h
    · cases h
    · rename_i d s1 h1
      split at h
      · cases h
      · rename_i acc s2 h2
        cases h
        refine ⟨normDivisor_some_lt fuel _ 0 _ h1 (by omega), by positivity, ?_⟩
        have := normAccumulator_some_lt fuel _ s1 _ h2
          (by have ha32 : a % 2 ^ 32 < 2 ^ 32 := by omega
              calc a % 2 ^ 32 * 2 ^ 32 ≤ (2 ^ 32 - 1) * 2 ^ 32 := by
                     exact Nat.mul_le_mul_right _ (by omega)
                _ < 2 ^ 64 := by norm_num)
        simpa using this
  refine ⟨by simp only [mul_init]; omega, by simp only [mul_init]; omega, ?_, ?_, ?_,
    rfl, ?_, ?_, hdiv, hacc0, hacc1, ?_⟩
  · simp only [mul_init]
    omega
  · simp only [mul_init]
    omega
  · simp only [mul_step]
    exact Nat.div_le_self _ _
  · exact combinatorial_nonneg _ _ _ _ _
  · exact combinatorial_lt _ _ _ _ _
  · simp only [div_step]
    split <;> exact Nat.div_le_self _ _

theorem C6_witness :
    (mul_init multdiv.init 2 1 false false).multiplier < 2 ^ 32 ∧
    (mul_init multdiv.init 2 1 false false).multiplicand < 2 ^ 32 ∧
    0 ≤ (mul_init multdiv.init 2 1 false false).accumulator ∧
    (mul_init multdiv.init 2 1 false false).accumulator < 2 ^ 64 ∧
    (mul_step multdiv.init).1.multiplier ≤ multdiv.init.multiplier ∧
    (mul_step multdiv.init).1.multiplicand = multdiv.init.multiplicand ∧
    0 ≤ (mul_step multdiv.init).1.accumulator ∧
    (mul_step multdiv.init).1.accumulator < 2 ^ 64 ∧
    (multdiv.mk (2 ^ 63) 0 0 1 (2 ^ 31)).divisor < 2 ^ 32 ∧
    0 ≤ (multdiv.mk (2 ^ 63) 0 0 1 (2 ^ 31)).accumulator ∧
    (multdiv.mk (2 ^ 63) 0 0 1 (2 ^ 31)).accumulator < 2 ^ 64 ∧
    (div_step multdiv.init).1.divisor ≤ multdiv.init.divisor :=
  C6_amended multdiv.init 2 1 false false false 64
    (multdiv.mk (2 ^ 63) 0 0 1 (2 ^ 31)) (by decide)

theorem normDivisor_zero (fuel : Nat) (s : Int) : normDivisor fuel 0 s = none := by
  induction fuel generalizing s with
  | zero =>
    unfold normDivisor
    norm_num
  | succ fuel ih =>
    unfold normDivisor
    norm_num
    exact ih (s + 1)

theorem normAccumulator_zero (fuel : Nat) (s : Int) : normAccumulator fuel 0 s = none := by
  induction fuel generalizing s with
  | zero =>
    unfold normAccumulator
    norm_num
  | succ fuel ih =>
    unfold normAccumulator
    norm_num
    exact ih (s - 1)

theorem div_init_none_of_b (m : multdiv) (a b : Nat) (sg : Bool) (fuel : Nat)
    (hb : b % 2 ^ 32 = 0) : div_init m a b sg fuel = none := by
  unfold div_init
  rw [hb, normDivisor_zero]

theorem div_init_none_of_a (m : multdiv) (a b : Nat) (sg : Bool) (fuel : Nat)
    (ha : a % 2 ^ 32 = 0) : div_init m a b sg fuel = none := by
  unfold div_init
  rw [ha]
  norm_num
  simp only [normAccumulator_zero]
  split <;> rfl

theorem normDivisor_isSome (fuel : Nat) (d : Nat) (s : Int) (h0 : 0 < d)
    (hlt : d < 2 ^ 32) (hb : 2 ^ 32 ≤ d * 2 ^ fuel) :
    (normDivisor fuel d s).isSome = true := by
  induction fuel generalizing d s with
  | zero =>
    unfold normDivisor
    have : d / 2 ^ 31 % 2 = 1 := by omega
    rw [if_pos this]
    rfl
  | succ fuel ih =>
    unfold normDivisor
    split
    · rfl
    · rename_i hbit
      exact ih (d * 2) (s + 1) (by omega) (by omega)
        (by rw [show d * 2 * 2 ^ fuel = d * 2 ^ (fuel + 1) from by ring]
            exact hb)

theorem normAccumulator_isSome (fuel : Nat) (acc : Nat) (s : Int) (h0 : 0 < acc)
    (hlt : acc < 2 ^ 64) (hb : 2 ^ 64 ≤ acc * 2 ^ fuel) :
    (normAccumulator fuel acc s).isSome = true := by
  induction fuel generalizing acc s with
  | zero =>
    unfold normAccumulator
    have : acc / 2 ^ 63 % 2 = 1 := by omega
    rw [if_pos this]
    rfl
  | succ fuel ih =>
    unfold normAccumulator
    split
    · rfl
    · rename_i hbit
      exact ih (acc * 2) (s - 1) (by omega) (by omega)
        (by rw [show acc * 2 * 2 ^ fuel = acc * 2 ^ (fuel + 1) from by ring]
            exact hb)

theorem div_init_isSome (m : multdiv) (a b : Nat) (sg : Bool)
    (ha : a % 2 ^ 32 ≠ 0) (hb : b % 2 ^ 32 ≠ 0) :
    (div_init m a b sg 64).isSome = true := by
  have h1 : (normDivisor 64 (b % 2 ^ 32) 0).isSome = true := by
    refine normDivisor_isSome 64 _ 0 (by omega) (by omega) ?_
    calc (2 : Nat) ^ 32 ≤ 1 * 2 ^ 64 := by norm_num
    _ ≤ b % 2 ^ 32 * 2 ^ 64 := Nat.mul_le_mul_right _ (by omega)
  unfold div_init
  split
  · rename_i hnone
    rw [hnone] at h1
    cases h1
  · rename_i d s1 hd
    have h2 : (normAccumulator 64 (a % 2 ^ 32 * 2 ^ 32) s1).isSome = true := by
      refine normAccumulator_isSome 64 _ s1 ?_ ?_ ?_
      · have h : 0 < a % 2 ^ 32 := by omega
        positivity
      · calc a % 2 ^ 32 * 2 ^ 32 ≤ (2 ^ 32 - 1) * 2 ^ 32 :=
              Nat.mul_le_mul_right _ (by omega)
        _ < 2 ^ 64 := by norm_num
      · calc (2 : Nat) ^ 64 = 1 * 2 ^ 32 * 2 ^ 32 := by norm_num
        _ ≤ a % 2 ^ 32 * 2 ^ 32 * 2 ^ 32 :=
              Nat.mul_le_mul_right _ (Nat.mul_le_mul_right _ (by omega))
        _ ≤ a % 2 ^ 32 * 2 ^ 32 * 2 ^ 64 := Nat.mul_le_mul_left _ (by norm_num)
    split
    · rename_i hnone
      rw [hnone] at h2
      cases h2
    · rfl

/-- C8 counterexample: `div_init(0, 1)` has a divisor with nonzero low 32
bits, yet it never terminates — the accumulator-normalization loop shifts
the zero dividend forever — contradicting the claim that `div_init`
terminates for every `a` whenever `b mod 2^32` is nonzero. -/
theorem C8_cex :
    (∃ fuel, (div_init multdiv.init 0 1 false fuel).isSome = true) ↔ False := by
  rw [iff_false]
  rintro ⟨fuel, hs⟩
  rw [div_init_none_of_a multdiv.init 0 1 false fuel (by norm_num)] at hs
  cases hs

/-- C8 amended: `div_init(a, b)` terminates exactly when both the dividend
and the divisor have nonzero low 32 bits; a zero divisor hangs the
divisor-normalization loop, and a zero (low 32 bits of the) dividend hangs
the accumulator-normalization loop. -/
theorem C8_amended (m : multdiv) (a b : Nat) (sg : Bool) :
    (∃ fuel, (div_init m a b sg fuel).isSome = true) ↔
      (a % 2 ^ 32 ≠ 0 ∧ b % 2 ^ 32 ≠ 0) := by
  constructor
  · rintro ⟨fuel, hs⟩
    constructor
    · intro ha
      rw [div_init_none_of_a m a b sg fuel ha] at hs
      cases hs
    · intro hb
      rw [div_init_none_of_b m a b sg fuel hb] at hs
      cases hs
  · rintro ⟨ha, hb⟩
    exact ⟨64, div_init_isSome m a b sg ha hb⟩

/-- C9: the `signed` parameter of `div_init` is never consulted — for any
operands, both the state produced by `div_init` and the entire subsequent
trace of `div_step` returns, accumulator values, quotient and remainder
are identical for `signed = true` and `signed = false`. -/
theorem divTrace_signed (n : Nat) (s : multdiv) (a b : Nat) :
    divTrace n s a b true = divTrace n s a b false := by
  induction n generalizing s with
  | zero => rfl
  | succ n ih =>
    unfold divTrace
    simp only [ih]

/-- C9: the `signed` parameter of `div_init` is never consulted — for any
operands, both the state produced by `div_init` and the entire subsequent
trace of `div_step` returns, accumulator values, quotient and remainder
are identical for `signed = true` and `signed = false`. -/
theorem C9_signed_ignored (m : multdiv) (a b : Nat) (fuel n : Nat) :
    div_init m a b true fuel = div_init m a b false fuel ∧
    (div_init m a b true fuel).map (fun s => divTrace n s a b true) =
      (div_init m a b false fuel).map (fun s => divTrace n s a b false) := by
  refine ⟨rfl, ?_⟩
  simp only [divTrace_signed]
  rfl

theorem mul_step_idle (m : multdiv) (h0 : m.multiplier = 0) (h1 : 1 ≤ m.stage)
    (h2 : 0 ≤ m.accumulator) (h3 : m.accumulator < 2 ^ 64) :
    (mul_step m).1 = { m with stage := m.stage + 1 } := by
  obtain ⟨acc, mult, mcand, stg, dv⟩ := m
  simp only at h0 h1 h2 h3
  subst h0
  have hne : ¬(stg = 0) := by omega
  simp only [mul_step, combinatorial_spec, hne, decide_eq_false_iff_not,
    not_false_eq_true, if_false, decide_eq_true_eq]
  norm_num [multdiv.mk.injEq]
  omega

/-- C10: in any engine state whose (64-bit) accumulator is in range, with
the multiplier register zero and the stage counter at least 1, any number
of further `mul_step` calls leaves the accumulator (the product value)
unchanged, and every such call returns true — so extra calls after the
multiply first reports done do not change the product. -/
theorem C10_idle (m : multdiv) (h0 : m.multiplier = 0) (h1 : 1 ≤ m.stage)
    (h2 : 0 ≤ m.accumulator) (h3 : m.accumulator < 2 ^ 64) (n : Nat) :
    (mulIter n m).accumulator = m.accumulator ∧ (mul_step (mulIter n m)).2 = true := by
  induction n generalizing m with
  | zero =>
    refine ⟨rfl, ?_⟩
    rw [mul_step_snd]
    simp [mulIter, mul_step, h0]
  | succ n ih =>
    show (mulIter n (mul_step m).1).accumulator = _ ∧ (mul_step (mulIter n (mul_step m).1)).2 = true
    rw [mul_step_idle m h0 h1 h2 h3]
    have := ih { m with stage := m.stage + 1 } (by simpa) (by simp only; omega)
      (by simpa) (by simpa)
    simpa using this

theorem C10_witness :
    (mulIter 5 (mulRun 4 5 false false 8)).accumulator
        = (mulRun 4 5 false false 8).accumulator ∧
    (mul_step (mulIter 5 (mulRun 4 5 false false 8))).2 = true :=
  C10_idle (mulRun 4 5 false false 8) (by decide) (by decide) (by decide) (by decide) 5

end MultDiv
